import Mathlib

/-!
Verification of the smart-crop sidecar pipeline (`src/scripts/smart_crop.py`).

The pipeline turns a sampled stream of face detections (plus optional
speaker-diarization turns) into a crop path.  We embed the numeric core of the
script shallowly: Python ints become `ℤ`, Python floats become `ℚ`, Python
`int()` truncation becomes `pyInt`, Python banker's rounding becomes `pyRound`,
and each loop that threads mutable state becomes a structurally recursive
function carrying that state.
-/

namespace SmartCrop

attribute [local semireducible] Rat.add Rat.mul Rat.sub Rat.inv

/-- Python `int()` applied to a numeric value: truncation toward zero. -/
def pyInt (q : ℚ) : ℤ := if 0 ≤ q then ⌊q⌋ else ⌈q⌉

/-- Python `round()` on a numeric value: round half to even. -/
def pyRound (q : ℚ) : ℤ :=
  let f := ⌊q⌋
  let r := q - f
  if r < 1/2 then f
  else if 1/2 < r then f + 1
  else if f % 2 = 0 then f else f + 1

/-- Python `round(q, 4)`: round to four decimal places, half to even. -/
def pyRound4 (q : ℚ) : ℚ := (pyRound (q * 10000) : ℚ) / 10000

/-- One face detection record as built by `detect_faces_in_frame`:
bounding box, derived center `(cx, cy)` and `area = w*h`. -/
structure Face where
  x : ℤ
  y : ℤ
  w : ℤ
  h : ℤ
  cx : ℤ
  cy : ℤ
  area : ℤ
deriving DecidableEq, Repr

/-- One entry of `frame_data`: a sampled instant and its (matched) detections. -/
structure Sample where
  t : ℚ
  faces : List Face
deriving DecidableEq, Repr

/-- One diarization segment `{start, end, speaker}` (`stop` stands for the
Python key `end`, a Lean keyword). -/
structure Turn where
  start : ℚ
  stop : ℚ
  speaker : String
deriving DecidableEq, Repr

/-- The fixed per-clip context: source dimensions, crop dimensions and the
diarization segments. -/
structure Ctx where
  srcW : ℤ
  srcH : ℤ
  cropW : ℤ
  cropH : ℤ
  diar : List Turn
deriving DecidableEq, Repr

/-- `get_speaker_at`: first diarization segment containing `t`, in list order. -/
def getSpeakerAt (diar : List Turn) (t : ℚ) : Option String :=
  (diar.find? (fun s => decide (s.start ≤ t) && decide (t ≤ s.stop))).map Turn.speaker

/-- `get_crop_y`: vertical crop origin with 20% headroom above the topmost
face; `0` with no detections; clamped to `[0, srcH - cropH]`. -/
def get_crop_y (faces : List Face) (srcH cropH : ℤ) : ℤ :=
  match faces with
  | [] => 0
  | f :: fs =>
    let topFaceY := (fs.map Face.y).foldl min f.y
    let targetY := topFaceY - pyInt ((cropH : ℚ) * (20/100))
    max 0 (min targetY (srcH - cropH))

/-- The `speaker_side` binding loop: it looks only at the first sample that
has at least two faces, and binds that sample's speaker (to "left") when one
resolves there; the loop breaks unconditionally at that sample.  Since the
dict can only ever hold one speaker, all mapped to "left", we model it as the
optional bound speaker label. -/
def speakerSide (ctx : Ctx) (fds : List Sample) : Option String :=
  match fds.find? (fun fd => decide (2 ≤ fd.faces.length)) with
  | none => none
  | some fd => getSpeakerAt ctx.diar fd.t

/-- Python `min(l, key)` over a nonempty list (`best` seeded with the first
element): first element attaining the minimal key. -/
def argminBy (key : Face → ℤ) : Face → List Face → Face
  | best, [] => best
  | best, f :: fs => if key f < key best then argminBy key f fs else argminBy key best fs

/-- Python `max(l, key)` over a nonempty list: first element attaining the
maximal key. -/
def argmaxBy (key : Face → ℤ) : Face → List Face → Face
  | best, [] => best
  | best, f :: fs => if key best < key f then argmaxBy key f fs else argmaxBy key best fs

/-- The target-center selection inside `get_crop_x` (the `target_cx`
variable): one detection → its center; speaker bound and resolving → leftmost
by `cx`; prior tracked center → interior detection closest to it; else
interior detection with the largest area.  `sside` is the (at most one,
always-"left") speaker-side binding. -/
def targetCxOf (ctx : Ctx) (sside : Option String) (f : Face) (fs : List Face) (t : ℚ)
    (last_crop_cx : Option ℤ) : ℤ :=
  if fs.isEmpty then f.cx
  else
    let spkBound : Bool :=
      match getSpeakerAt ctx.diar t, sside with
      | some spk, some bound => spk == bound
      | _, _ => false
    if spkBound then
      -- side is always "left": `sorted(faces, key=cx)[0]`
      (argminBy Face.cx f fs).cx
    else
      -- interior faces: more than one crop width away from either edge
      let interior := (f :: fs).filter
        (fun g => decide (ctx.cropW < g.cx) && decide (g.cx < ctx.srcW - ctx.cropW))
      match last_crop_cx with
      | some lcx =>
        match interior with
        | [] => (argminBy (fun g => |g.cx - lcx|) f fs).cx
        | c :: cs => (argminBy (fun g => |g.cx - lcx|) c cs).cx
      | none =>
        match interior with
        | [] => (argmaxBy Face.area f fs).cx
        | c :: cs => (argmaxBy Face.area c cs).cx

/-- `get_crop_x`: pick a target center from the sample's detections and clamp
the derived crop origin to `[0, srcW - cropW]`; `none` with no detections. -/
def get_crop_x (ctx : Ctx) (sside : Option String) (faces : List Face) (t : ℚ)
    (last_crop_cx : Option ℤ) : Option ℤ :=
  match faces with
  | [] => none
  | f :: fs =>
    let crop_x := targetCxOf ctx sside f fs t last_crop_cx - Int.fdiv ctx.cropW 2
    some (max 0 (min crop_x (ctx.srcW - ctx.cropW)))

/-- One entry of `raw_coords`. -/
structure RawCoord where
  t : ℚ
  x : ℤ
  face : Bool
deriving DecidableEq, Repr

/-- Clamp a rational to `[0, srcW - cropW]` (the float `max(0, min(..))`). -/
def clampX (ctx : Ctx) (q : ℚ) : ℚ := max 0 (min q ((ctx.srcW - ctx.cropW : ℤ) : ℚ))

/-- The velocity-prediction loop: state is `(last_x, last_cx, last_velocity)`.
A sample with no detections gets the clamped extrapolated position and the
velocity decays by half; a detected sample records its clamped crop origin,
the new velocity and the new tracked center. -/
def predictGo (ctx : Ctx) (sside : Option String) :
    ℤ → ℤ → ℚ → List Sample → List RawCoord
  | _, _, _, [] => []
  | lastX, lastCx, lastVel, fd :: rest =>
    let hasFace := !fd.faces.isEmpty
    match get_crop_x ctx sside fd.faces fd.t (some lastCx) with
    | none =>
      let predicted : ℚ := (lastX : ℚ) + lastVel * (1/2)
      let x := pyInt (clampX ctx predicted)
      ⟨fd.t, x, hasFace⟩ :: predictGo ctx sside x lastCx (lastVel * (1/2)) rest
    | some cx =>
      ⟨fd.t, cx, hasFace⟩ ::
        predictGo ctx sside cx (cx + Int.fdiv ctx.cropW 2) ((cx : ℚ) - (lastX : ℚ)) rest

/-- `raw_coords` for the whole clip, with the initial state of the script. -/
def rawPass (ctx : Ctx) (fds : List Sample) : List RawCoord :=
  predictGo ctx (speakerSide ctx fds) (Int.fdiv (ctx.srcW - ctx.cropW) 2)
    (Int.fdiv ctx.srcW 2) 0 fds

/-- Dead-zone threshold (pixels). -/
def DEAD_ZONE : ℚ := 5

/-- Snap-zone threshold (pixels). -/
def SNAP_ZONE : ℚ := 150

/-- `ALPHA = min(0.9, 0.1 + velocity / 200)` where the loop's `velocity` is
the current delta. -/
def alphaOf (delta : ℚ) : ℚ := min (9/10) (1/10 + delta / 200)

/-- One step of the adaptive smoothing loop: the new `smoothed_x` given the
previous `smoothed_x`, whether the previous sample had a face, and the current
raw position and face flag. -/
def smoothNext (sx : ℚ) (phf : Bool) (rawX : ℚ) (face : Bool) : ℚ :=
  if face && !phf then rawX
  else if SNAP_ZONE < |rawX - sx| then rawX
  else if DEAD_ZONE < |rawX - sx| then
    alphaOf |rawX - sx| * rawX + (1 - alphaOf |rawX - sx|) * sx
  else sx

/-- One keyframe of `coords` / `frame_coords`. -/
structure Coord where
  t : ℚ
  x : ℤ
  y : ℤ
  w : ℤ
  h : ℤ
  face : Bool
deriving DecidableEq, Repr

/-- `fd_map.get(t, {}).get("faces", [])`: dict semantics, the last sample with
this timestamp wins, default empty. -/
def lookupFaces (fds : List Sample) (t : ℚ) : List Face :=
  ((fds.foldl (fun acc fd => if fd.t = t then some fd else acc) none).map Sample.faces).getD []

/-- The body of the smoothing loop over `raw_coords`, threading
`(smoothed_x, prev_had_face)`. -/
def smoothGo (ctx : Ctx) (fds : List Sample) : ℚ → Bool → List RawCoord → List Coord
  | _, _, [] => []
  | sx, phf, rc :: rest =>
    let sx' := smoothNext sx phf (rc.x : ℚ) rc.face
    let ffaces := lookupFaces fds rc.t
    let cy := get_crop_y ffaces ctx.srcH ctx.cropH
    ⟨rc.t, pyInt sx', cy, ctx.cropW, ctx.cropH, rc.face⟩ :: smoothGo ctx fds sx' rc.face rest

/-- The smoothing stage: it initializes `smoothed_x` and `prev_had_face` from
`raw_coords[0]`, so with an empty list the script would raise an IndexError,
modelled as `none`. -/
def smoothStage (ctx : Ctx) (fds : List Sample) : List RawCoord → Option (List Coord)
  | [] => none
  | r :: rest => some (smoothGo ctx fds (r.x : ℚ) r.face (r :: rest))

/-- The keyframes (`coords`) produced for a clip in the talking-head branch. -/
def keyframes (ctx : Ctx) (fds : List Sample) : Option (List Coord) :=
  smoothStage ctx fds (rawPass ctx fds)

/-- Scene-cut threshold for interpolation (pixels). -/
def INTERP_SNAP : ℤ := 150

/-- The frames emitted between consecutive keyframes `a` and `b`:
`steps = max(1, round((b.t - a.t)/frame_interval))`; on a scene cut the first
step keeps `a`'s coordinates and every later step already uses `b`'s;
otherwise linear interpolation truncated to int. -/
def interpBlock (ctx : Ctx) (fps : ℚ) (a b : Coord) : List Coord :=
  let frameInterval := 1 / fps
  let steps : ℤ := max 1 (pyRound ((b.t - a.t) / frameInterval))
  let isSceneCut : Bool := decide (INTERP_SNAP < |b.x - a.x|)
  (List.range steps.toNat).map (fun (step : ℕ) =>
    let xv := if isSceneCut then (if 0 < step then b.x else a.x)
      else pyInt ((a.x : ℚ) + ((step : ℚ) / (steps : ℚ)) * ((b.x : ℚ) - (a.x : ℚ)))
    let yv := if isSceneCut then (if 0 < step then b.y else a.y)
      else pyInt ((a.y : ℚ) + ((step : ℚ) / (steps : ℚ)) * ((b.y : ℚ) - (a.y : ℚ)))
    ⟨pyRound4 (a.t + (step : ℚ) * frameInterval), xv, yv, ctx.cropW, ctx.cropH, a.face⟩)

/-- The interpolation loop over consecutive keyframe pairs. -/
def interpPairs (ctx : Ctx) (fps : ℚ) : List Coord → List Coord
  | a :: b :: rest => interpBlock ctx fps a b ++ interpPairs ctx fps (b :: rest)
  | _ => []

/-- `frame_coords`: all interpolated blocks, then the last keyframe verbatim. -/
def frameCoordsOf (ctx : Ctx) (fps : ℚ) : List Coord → List Coord
  | [] => []
  | c :: cs => interpPairs ctx fps (c :: cs) ++ [(c :: cs).getLast (List.cons_ne_nil c cs)]

/-- One segment: kind (`true` = face / tracked), time range, keyframes. -/
structure Seg where
  kind : Bool
  start : ℚ
  stop : ℚ
  coords : List Coord
deriving DecidableEq, Repr

/-- Minimum segment duration for merging (seconds). -/
def MIN_SEG_DURATION : ℚ := 3/2

/-- The merge loop, threading the last element of `merged` as `cur`: a short
segment is absorbed into its predecessor (end extended, keyframes
concatenated); any other segment is appended and becomes the new `cur`. -/
def mergeGo (cur : Seg) : List Seg → List Seg
  | [] => [cur]
  | s :: rest =>
    if s.stop - s.start < MIN_SEG_DURATION then
      mergeGo ⟨cur.kind, cur.start, s.stop, cur.coords ++ s.coords⟩ rest
    else cur :: mergeGo s rest

/-- `merged`: the first segment is always appended (even when short, since
`merged` is empty at that point), then `mergeGo` scans the rest. -/
def mergeSegs : List Seg → List Seg
  | [] => []
  | s :: rest => mergeGo s rest

/-- The classifier's outcome. -/
inductive VideoType where
  | noFace
  | screenPip
  | podcast
deriving DecidableEq, Repr

/-- `on_side`: the center is in the outer margins. -/
def onSide (ctx : Ctx) (f : Face) : Bool :=
  decide ((f.cx : ℚ) < (ctx.srcW : ℚ) * (30/100)) ||
  decide ((ctx.srcW : ℚ) * (65/100) < (f.cx : ℚ))

/-- `is_centered`: the center is in the middle band horizontally and
vertically. -/
def isCentered (ctx : Ctx) (f : Face) : Bool :=
  decide ((ctx.srcW : ℚ) * (25/100) < (f.cx : ℚ)) &&
  decide ((f.cx : ℚ) < (ctx.srcW : ℚ) * (75/100)) &&
  decide ((ctx.srcH : ℚ) * (15/100) < (f.cy : ℚ)) &&
  decide ((f.cy : ℚ) < (ctx.srcH : ℚ) * (85/100))

/-- The horizontal-only condition of the `centered_faces` bonus filter. -/
def centeredCx (ctx : Ctx) (f : Face) : Bool :=
  decide ((ctx.srcW : ℚ) * (25/100) < (f.cx : ℚ)) &&
  decide ((f.cx : ℚ) < (ctx.srcW : ℚ) * (75/100))

/-- The classification counting loop: per sample, each face adds 1 to the pip
count when on a side, else 1 to the full count when centered; a sample with at
least two horizontally centered faces adds a +2 bonus to the full count. -/
def classifyCounts (ctx : Ctx) (samples : List (List Face)) : ℤ × ℤ :=
  samples.foldl (fun pf faces =>
    let pip := pf.1 + (faces.countP (onSide ctx) : ℤ)
    let full := pf.2 + (faces.countP (fun f => !onSide ctx f && isCentered ctx f) : ℤ)
    let full2 := if 2 ≤ faces.countP (centeredCx ctx) then full + 2 else full
    (pip, full2)) (0, 0)

/-- The layout decision on the sampled detections. -/
def classify (ctx : Ctx) (samples : List (List Face)) : VideoType :=
  let counts := classifyCounts ctx samples
  let totalFaceFrames := samples.countP (fun faces => !faces.isEmpty)
  if totalFaceFrames = 0 then VideoType.noFace
  else if counts.2 < counts.1 ∧ 3 ≤ counts.1 then VideoType.screenPip
  else VideoType.podcast

/-- Manhattan distance between face centers, the matching key. -/
def faceDist (pf f : Face) : ℤ := |f.cx - pf.cx| + |f.cy - pf.cy|

/-- Extract the first element attaining the minimal key from a nonempty list
(`best` seeded with the head), returning it and the rest in original order:
Python's `min(candidates, key)` followed by marking the index used. -/
def extractMin (key : Face → ℤ) : Face → List Face → Face × List Face
  | best, [] => (best, [])
  | best, f :: fs =>
    if key f < key best then
      let br := extractMin key f fs
      (br.1, best :: br.2)
    else
      let br := extractMin key best fs
      (br.1, f :: br.2)

/-- The greedy matching loop: for each previous face take the unused current
face closest in Manhattan distance; when previous faces run out the unused
current faces follow in original order; when current faces run out the loop
breaks. -/
def matchGo : List Face → List Face → List Face
  | [], rem => rem
  | _ :: _, [] => []
  | pf :: pfs, c :: cs =>
    let br := extractMin (faceDist pf) c cs
    br.1 :: matchGo pfs br.2

/-- `match_faces_across_frames`. -/
def match_faces_across_frames (prev curr : List Face) : List Face :=
  if prev.isEmpty || curr.isEmpty then curr else matchGo prev curr

/-! ## Specification-side definitions (transcribed from the spec's words,
for refinement comparisons) -/

/-- The adaptive-smoothing step as the spec words it: a hard snap on
reacquisition, a hard snap above the snap threshold, an adaptive blend with
`α = min(0.9, 0.1 + delta/200)` above the dead zone, otherwise unchanged. -/
def specSmoothNext (sx : ℚ) (phf : Bool) (x : ℚ) (face : Bool) : ℚ :=
  let delta := |x - sx|
  if face = true ∧ phf = false then x
  else if delta > SNAP_ZONE then x
  else if delta > DEAD_ZONE then
    let alpha := min (9/10) (1/10 + delta / 200)
    alpha * x + (1 - alpha) * sx
  else sx

/-- The layout decision rule as the spec words it, on the accumulated counts:
no detection anywhere → no-subject; side count exceeding centered count and at
least 3 → screen-with-inset; else talking-head. -/
def specLayoutDecision (anyDetection : Bool) (sideCount centeredCount : ℤ) : VideoType :=
  if anyDetection = false then VideoType.noFace
  else if sideCount > centeredCount ∧ sideCount ≥ 3 then VideoType.screenPip
  else VideoType.podcast

/-- The speaker-side binding as the claim words it: the first sample with at
least two detections *whose timestamp resolves to a known speaker* binds that
speaker. -/
def claimSpeakerSide (ctx : Ctx) (fds : List Sample) : Option String :=
  (fds.find? (fun fd => decide (2 ≤ fd.faces.length) && (getSpeakerAt ctx.diar fd.t).isSome)).bind
    (fun fd => getSpeakerAt ctx.diar fd.t)

/-! ## Shared concrete inputs for witnesses and counterexamples -/

/-- A 1000×1000 source with a 562×1000 crop window and no diarization. -/
def CtxA : Ctx := ⟨1000, 1000, 562, 1000, []⟩

/-- A face used in concrete scenarios. -/
def faceA : Face := ⟨80, 100, 40, 40, 100, 120, 1600⟩

/-- A face at 10% of the width of `CtxA` (classification scenario B). -/
def faceB : Face := ⟨80, 480, 40, 40, 100, 500, 1600⟩

/-! ## C2: adaptive smoothing follows the stated priority order -/

/-- C2: the adaptive smoothing step processes each sample in strict priority
order given `delta = |x − smoothedX|`: hard snap on reacquisition, hard snap
above the snap threshold, adaptive blend with `α = min(0.9, 0.1 + delta/200)`
above the dead zone, otherwise unchanged. -/
theorem smoothNext_eq_spec (sx : ℚ) (phf : Bool) (x : ℚ) (face : Bool) :
    smoothNext sx phf x face = specSmoothNext sx phf x face := by
  cases face <;> cases phf <;> simp [smoothNext, specSmoothNext, alphaOf]

/-! ## C4: layout classification decision rule -/

/-- C4: the classifier decides, on the accumulated side and centered counts:
zero samples with any detection → no-subject; side count > centered count and
side count ≥ 3 → screen-with-inset; else talking-head.  Moreover, one
detection at 10% of the width in 4 of 9 samples yields counts (4, 0) and the
screen-with-inset mode. -/
theorem classify_eq_spec :
    (∀ (ctx : Ctx) (samples : List (List Face)),
      classify ctx samples =
        specLayoutDecision (samples.any (fun fs => !fs.isEmpty))
          (classifyCounts ctx samples).1 (classifyCounts ctx samples).2) ∧
    classifyCounts CtxA [[faceB], [faceB], [faceB], [faceB], [], [], [], [], []] = (4, 0) ∧
    classify CtxA [[faceB], [faceB], [faceB], [faceB], [], [], [], [], []] =
      VideoType.screenPip := by
  refine ⟨fun ctx samples => ?_, by decide, by decide⟩
  unfold classify specLayoutDecision
  have hcount : (samples.countP (fun faces => !faces.isEmpty) = 0) ↔
      (samples.any (fun fs => !fs.isEmpty) = false) := by
    rw [List.countP_eq_zero, List.any_eq_false]
  by_cases h0 : samples.countP (fun faces => !faces.isEmpty) = 0
  · rw [if_pos h0, if_pos (hcount.mp h0)]
  · rw [if_neg h0, if_neg (fun hf => h0 (hcount.mpr hf))]

/-! ## C10: identity matching permutes the current detections -/

theorem extractMin_perm (key : Face → ℤ) :
    ∀ (fs : List Face) (best : Face),
      (best :: fs).Perm ((extractMin key best fs).1 :: (extractMin key best fs).2) := by
  intro fs
  induction fs with
  | nil => intro best; simp [extractMin]
  | cons f fs ih =>
    intro best
    by_cases h : key f < key best
    · simp only [extractMin, if_pos h]
      exact ((ih f).cons best).trans (List.Perm.swap _ _ _)
    · simp only [extractMin, if_neg h]
      exact (List.Perm.swap f best fs).trans
        (((ih best).cons f).trans (List.Perm.swap _ f _))

theorem matchGo_perm : ∀ (prev curr : List Face), (matchGo prev curr).Perm curr := by
  intro prev
  induction prev with
  | nil => intro curr; simp [matchGo]
  | cons pf pfs ih =>
    intro curr
    cases curr with
    | nil => simp [matchGo]
    | cons c cs =>
      simp only [matchGo]
      exact ((ih _).cons _).trans (extractMin_perm (faceDist pf) cs c).symm

/-- C10: `match_faces_across_frames` returns a permutation of the current
sample's detections (none dropped or duplicated), and returns the current list
unchanged when either input list is empty. -/
theorem match_faces_perm (prev curr : List Face) :
    (match_faces_across_frames prev curr).Perm curr ∧
    (prev = [] ∨ curr = [] → match_faces_across_frames prev curr = curr) := by
  constructor
  · unfold match_faces_across_frames
    by_cases h : prev.isEmpty || curr.isEmpty
    · rw [if_pos h]
    · rw [if_neg h]; exact matchGo_perm prev curr
  · intro h
    unfold match_faces_across_frames
    rcases h with h | h <;> simp [h]

/-- Witness for C10 at a concrete input with an empty previous sample. -/
theorem match_faces_perm_witness :
    (match_faces_across_frames [] [faceA]).Perm [faceA] ∧
      match_faces_across_frames [] [faceA] = [faceA] :=
  ⟨(match_faces_perm [] [faceA]).1, (match_faces_perm [] [faceA]).2 (Or.inl rfl)⟩

/-! ## C9: the smoothing stage is total exactly on nonempty sample streams -/

theorem rawPass_ne_nil (ctx : Ctx) (fds : List Sample) (h : fds ≠ []) :
    rawPass ctx fds ≠ [] := by
  cases fds with
  | nil => exact absurd rfl h
  | cons fd rest =>
    unfold rawPass predictGo
    cases hx : get_crop_x ctx (speakerSide ctx (fd :: rest)) fd.faces fd.t
        (some (Int.fdiv ctx.srcW 2)) <;> simp [hx]

/-- C9: with zero samples the smoothing stage hits the error branch (the
script's read of `raw_coords[0]` raises, modelled as `none`); with at least
one sample the initial reads are in bounds and the stage is total, both on an
arbitrary raw stream and on the stream the sampling pipeline produces. -/
theorem smoothStage_total_iff (ctx : Ctx) (fds : List Sample) :
    smoothStage ctx fds [] = none ∧
    (∀ rcs : List RawCoord, rcs ≠ [] → (smoothStage ctx fds rcs).isSome) ∧
    (fds ≠ [] → (keyframes ctx fds).isSome) := by
  refine ⟨rfl, fun rcs h => ?_, fun h => ?_⟩
  · cases rcs with
    | nil => exact absurd rfl h
    | cons r rest => simp [smoothStage]
  · unfold keyframes
    cases hr : rawPass ctx fds with
    | nil => exact absurd hr (rawPass_ne_nil ctx fds h)
    | cons r rest => simp [smoothStage]

/-- Witness for C9 at a concrete nonempty sample stream. -/
theorem smoothStage_total_iff_witness :
    smoothStage CtxA [⟨0, [faceA]⟩] [] = none ∧
      (smoothStage CtxA [⟨0, [faceA]⟩] [⟨0, 100, true⟩]).isSome ∧
      (keyframes CtxA [⟨0, [faceA]⟩]).isSome :=
  ⟨(smoothStage_total_iff CtxA [⟨0, [faceA]⟩]).1,
   (smoothStage_total_iff CtxA [⟨0, [faceA]⟩]).2.1 [⟨0, 100, true⟩] (by decide),
   (smoothStage_total_iff CtxA [⟨0, [faceA]⟩]).2.2 (by decide)⟩

/-! ## C6: a scene-cut block never emits an intermediate x -/

/-- C6: when consecutive keyframes differ in `x` by more than the scene-cut
threshold, every frame the interpolator emits between them has `x` equal to
one of the two endpoints, never a value strictly between. -/
theorem interpBlock_scene_cut_endpoints (ctx : Ctx) (fps : ℚ) (a b : Coord)
    (h : INTERP_SNAP < |b.x - a.x|) :
    ∀ c ∈ interpBlock ctx fps a b, c.x = a.x ∨ c.x = b.x := by
  intro c hc
  unfold interpBlock at hc
  rw [List.mem_map] at hc
  obtain ⟨step, hstep, rfl⟩ := hc
  simp only [decide_eq_true_eq, if_pos h, decide_eq_true h]
  by_cases hs : 0 < step
  · simp [if_pos hs]
  · simp [if_neg hs]

/-- Witness for C6 on the concrete scene-cut pair of scenario F. -/
theorem interpBlock_scene_cut_endpoints_witness :
    (⟨20333/10000, 550, 0, 562, 1000, true⟩ : Coord).x = (50 : ℤ) ∨
      (⟨20333/10000, 550, 0, 562, 1000, true⟩ : Coord).x = (550 : ℤ) :=
  interpBlock_scene_cut_endpoints CtxA 30 ⟨2, 50, 0, 562, 1000, true⟩
    ⟨21/10, 550, 0, 562, 1000, true⟩ (by decide)
    ⟨20333/10000, 550, 0, 562, 1000, true⟩ (by decide)

/-! ## C3: gap prediction with velocity decay -/

theorem pyInt_intCast (n : ℤ) : pyInt ((n : ℤ) : ℚ) = n := by
  unfold pyInt
  split <;> simp

/-- C3: a sample with no target gets the clamped extrapolation
`x = int(clamp(lastX + lastVelocity·0.5))` with the velocity halved; a sample
with a target records its crop origin, sets `lastVelocity = x − lastX` and
updates the tracked center; consequently a gap entered with `lastX = 100` and
zero velocity keeps every predicted `x` at exactly 100. -/
theorem predictGo_gap_spec (ctx : Ctx) (sside : Option String) :
    (∀ (lastX lastCx : ℤ) (lastVel : ℚ) (fd : Sample) (rest : List Sample),
      fd.faces = [] →
      predictGo ctx sside lastX lastCx lastVel (fd :: rest) =
        ⟨fd.t, pyInt (clampX ctx ((lastX : ℚ) + lastVel * (1/2))), false⟩ ::
          predictGo ctx sside (pyInt (clampX ctx ((lastX : ℚ) + lastVel * (1/2)))) lastCx
            (lastVel * (1/2)) rest) ∧
    (∀ (lastX lastCx : ℤ) (lastVel : ℚ) (fd : Sample) (rest : List Sample) (x : ℤ),
      get_crop_x ctx sside fd.faces fd.t (some lastCx) = some x →
      predictGo ctx sside lastX lastCx lastVel (fd :: rest) =
        ⟨fd.t, x, !fd.faces.isEmpty⟩ ::
          predictGo ctx sside x (x + Int.fdiv ctx.cropW 2) ((x : ℚ) - (lastX : ℚ)) rest) ∧
    (∀ (lastCx : ℤ) (gap : List Sample),
      (∀ fd ∈ gap, fd.faces = []) → (100 : ℤ) ≤ ctx.srcW - ctx.cropW →
      predictGo ctx sside 100 lastCx 0 gap =
        gap.map (fun fd => ⟨fd.t, 100, false⟩)) := by
  have hnone : ∀ (t : ℚ) (lc : ℤ), get_crop_x ctx sside [] t (some lc) = none := fun _ _ => rfl
  refine ⟨fun lastX lastCx lastVel fd rest h => ?_,
          fun lastX lastCx lastVel fd rest x hx => ?_,
          fun lastCx gap => ?_⟩
  · simp only [predictGo, h, hnone, List.isEmpty_nil, Bool.not_true]
  · simp only [predictGo, hx]
  · induction gap with
    | nil => intro _ _; simp [predictGo]
    | cons fd rest ih =>
      intro hall h100
      have hf : fd.faces = [] := hall fd (List.mem_cons_self fd rest)
      have hcl : clampX ctx (((100 : ℤ) : ℚ)) = ((100 : ℤ) : ℚ) := by
        unfold clampX
        rw [min_eq_left (by exact_mod_cast h100), max_eq_right (by positivity)]
      simp only [predictGo, hf, hnone, List.isEmpty_nil, Bool.not_true, zero_mul, add_zero,
        hcl, pyInt_intCast, List.map_cons]
      exact congrArg (List.cons _) (ih (fun g hg => hall g (List.mem_cons_of_mem fd hg)) h100)

/-- Witness for C3: each conjunct applied at a concrete input. -/
theorem predictGo_gap_spec_witness :
    (predictGo CtxA none 100 500 0 [⟨0, []⟩] =
      ⟨0, pyInt (clampX CtxA (((100 : ℤ) : ℚ) + 0 * (1/2))), false⟩ ::
        predictGo CtxA none (pyInt (clampX CtxA (((100 : ℤ) : ℚ) + 0 * (1/2)))) 500
          (0 * (1/2)) []) ∧
    (predictGo CtxA none 100 500 0 [⟨0, [faceA]⟩] =
      ⟨0, 0, !([faceA] : List Face).isEmpty⟩ ::
        predictGo CtxA none 0 (0 + Int.fdiv CtxA.cropW 2) (((0 : ℤ) : ℚ) - ((100 : ℤ) : ℚ)) []) ∧
    predictGo CtxA none 100 500 0 [⟨0, []⟩, ⟨1/10, []⟩] =
      ([⟨0, []⟩, ⟨1/10, []⟩] : List Sample).map (fun fd => ⟨fd.t, 100, false⟩) :=
  ⟨(predictGo_gap_spec CtxA none).1 100 500 0 ⟨0, []⟩ [] rfl,
   (predictGo_gap_spec CtxA none).2.1 100 500 0 ⟨0, [faceA]⟩ [] 0 (by decide),
   (predictGo_gap_spec CtxA none).2.2 500 [⟨0, []⟩, ⟨1/10, []⟩] (by decide) (by decide)⟩

/-! ## C5: scene-cut interpolation switches at the second frame, not at b.t -/

/-- Counterexample to C5 as stated: with keyframes `(t=2.0, x=50)` and
`(t=2.1, x=550)` at 30 fps, the emitted frame at index 1 has `t ≈ 2.0333`,
strictly before 2.1, yet already reports `x = 550`, not 50. -/
theorem interp_scene_cut_counterexample :
    (frameCoordsOf CtxA 30
        [⟨2, 50, 0, 562, 1000, true⟩, ⟨21/10, 550, 0, 562, 1000, true⟩]).get? 1 =
      some ⟨20333/10000, 550, 0, 562, 1000, true⟩ ∧
    (20333/10000 : ℚ) < 21/10 ∧ (550 : ℤ) ≠ 50 := by decide

theorem range_map_ite {α : Type} (A B : α) :
    ∀ n : ℕ, 1 ≤ n →
      (List.range n).map (fun step => if 0 < step then B else A) =
        A :: List.replicate (n - 1) B := by
  intro n
  induction n with
  | zero => intro h; exact absurd h (by decide)
  | succ n ih =>
    intro _
    rw [List.range_succ, List.map_append, List.map_singleton]
    cases n with
    | zero => rfl
    | succ m =>
      rw [ih (Nat.succ_le_succ (Nat.zero_le m))]
      simp [List.replicate_succ']

/-- C5 (amended): on a scene cut the interpolator emits `a`'s `x` only for the
first frame of the block and `b`'s `x` for every later frame — the switch
happens at the second emitted frame (before `b`'s time when the block has more
than two frames), not at the first frame at/after `b.t`; concretely, scenario
F's keyframes yield frames at t = 2, 2.0333, 2.0667, 2.1 with x = 50, 550,
550, 550. -/
theorem interpBlock_scene_cut_shape (ctx : Ctx) (fps : ℚ) (a b : Coord)
    (h : INTERP_SNAP < |b.x - a.x|) :
    ((interpBlock ctx fps a b).map Coord.x =
      a.x :: List.replicate ((max 1 (pyRound ((b.t - a.t) / (1 / fps)))).toNat - 1) b.x) ∧
    frameCoordsOf CtxA 30 [⟨2, 50, 0, 562, 1000, true⟩, ⟨21/10, 550, 0, 562, 1000, true⟩] =
      [⟨2, 50, 0, 562, 1000, true⟩, ⟨20333/10000, 550, 0, 562, 1000, true⟩,
       ⟨20667/10000, 550, 0, 562, 1000, true⟩, ⟨21/10, 550, 0, 562, 1000, true⟩] := by
  constructor
  · unfold interpBlock
    rw [List.map_map]
    simp only [decide_eq_true h, if_pos, Function.comp]
    have h1 : (1 : ℤ) ≤ max 1 (pyRound ((b.t - a.t) / (1 / fps))) := le_max_left _ _
    have h1n : 1 ≤ (max 1 (pyRound ((b.t - a.t) / (1 / fps)))).toNat := by
      omega
    exact range_map_ite a.x b.x _ h1n
  · decide

/-- Witness for C5 on the scenario-F keyframes at 30 fps. -/
theorem interpBlock_scene_cut_shape_witness :
    ((interpBlock CtxA 30 ⟨2, 50, 0, 562, 1000, true⟩ ⟨21/10, 550, 0, 562, 1000, true⟩).map
        Coord.x =
      (50 : ℤ) :: List.replicate
        ((max 1 (pyRound (((21/10 : ℚ) - 2) / (1 / 30)))).toNat - 1) 550) ∧
    frameCoordsOf CtxA 30 [⟨2, 50, 0, 562, 1000, true⟩, ⟨21/10, 550, 0, 562, 1000, true⟩] =
      [⟨2, 50, 0, 562, 1000, true⟩, ⟨20333/10000, 550, 0, 562, 1000, true⟩,
       ⟨20667/10000, 550, 0, 562, 1000, true⟩, ⟨21/10, 550, 0, 562, 1000, true⟩] :=
  interpBlock_scene_cut_shape CtxA 30 ⟨2, 50, 0, 562, 1000, true⟩
    ⟨21/10, 550, 0, 562, 1000, true⟩ (by decide)

/-! ## C8: speaker-side binding -/

/-- A second context, with one diarization turn for speaker "A" on [10, 20]. -/
def CtxC : Ctx := ⟨1000, 1000, 562, 1000, [⟨10, 20, "A"⟩]⟩

/-- Two samples with two faces each; only the second falls inside the turn. -/
def FdsC : List Sample := [⟨0, [faceA, faceB]⟩, ⟨15, [faceA, faceB]⟩]

/-- Counterexample to C8 as stated: the binding loop breaks at the *first*
sample with ≥2 detections whether or not a speaker resolves there.  Here the
first two-face sample (t=0) has no speaker, and the second (t=15, speaker "A")
is never examined: the code binds nothing, while the claim's reading binds
"A". -/
theorem speaker_binding_counterexample :
    speakerSide CtxC FdsC = none ∧ claimSpeakerSide CtxC FdsC = some "A" := by
  constructor <;> rfl

theorem argminBy_mem (key : Face → ℤ) :
    ∀ (fs : List Face) (best : Face), argminBy key best fs ∈ best :: fs := by
  intro fs
  induction fs with
  | nil => intro best; simp [argminBy]
  | cons f fs ih =>
    intro best
    by_cases h : key f < key best
    · simp only [argminBy, if_pos h]
      exact List.mem_cons_of_mem best (ih f)
    · simp only [argminBy, if_neg h]
      rcases List.mem_cons.mp (ih best) with h1 | h1
      · rw [List.mem_cons]; exact Or.inl h1
      · exact List.mem_cons_of_mem best (List.mem_cons_of_mem f h1)

theorem argminBy_le (key : Face → ℤ) :
    ∀ (fs : List Face) (best : Face) (g : Face), g ∈ best :: fs →
      key (argminBy key best fs) ≤ key g := by
  intro fs
  induction fs with
  | nil =>
    intro best g hg
    rcases List.mem_cons.mp hg with h1 | h1
    · rw [h1]; simp [argminBy]
    · exact absurd h1 (List.not_mem_nil g)
  | cons f fs ih =>
    intro best g hg
    by_cases h : key f < key best
    · simp only [argminBy, if_pos h]
      rcases List.mem_cons.mp hg with h1 | h1
      · rw [h1]; exact le_of_lt (lt_of_le_of_lt (ih f f (List.mem_cons_self f fs)) h)
      · exact ih f g h1
    · simp only [argminBy, if_neg h]
      rcases List.mem_cons.mp hg with h1 | h1
      · rw [h1]; exact ih best best (List.mem_cons_self best fs)
      · rcases List.mem_cons.mp h1 with h2 | h2
        · rw [h2]; exact (ih best best (List.mem_cons_self best fs)).trans (le_of_not_lt h)
        · exact ih best g (List.mem_cons_of_mem best h2)

theorem find?_append_left {α : Type} (p : α → Bool) :
    ∀ (l1 l2 : List α), (l1.find? p).isSome → (l1 ++ l2).find? p = l1.find? p := by
  intro l1 l2
  induction l1 with
  | nil => intro h; exact absurd h (by simp)
  | cons a l ih =>
    intro h
    by_cases hp : p a
    · simp [List.find?, hp]
    · rw [List.cons_append, List.find?, List.find?] at *
      rw [Bool.not_eq_true] at hp
      rw [hp] at h ⊢
      exact ih h

/-- C8 (amended): the binding is attempted only at the first sample with at
least two detections — it binds that sample's speaker when one resolves there
and otherwise never binds — and it is never re-evaluated (appending further
samples cannot change it); in any multi-detection sample whose timestamp
resolves to the bound speaker, the selector picks the leftmost detection by
`cx` (the minimal center, which is attained by a member of the list). -/
theorem speaker_binding_spec (ctx : Ctx) :
    (∀ fds rest : List Sample, (∃ fd ∈ fds, 2 ≤ fd.faces.length) →
      speakerSide ctx (fds ++ rest) = speakerSide ctx fds) ∧
    (∀ (f : Face) (fs : List Face) (t : ℚ) (lastCx : Option ℤ) (spk : String),
      fs ≠ [] → getSpeakerAt ctx.diar t = some spk →
      get_crop_x ctx (some spk) (f :: fs) t lastCx =
        some (max 0 (min ((argminBy Face.cx f fs).cx - Int.fdiv ctx.cropW 2)
          (ctx.srcW - ctx.cropW)))) ∧
    (∀ (f : Face) (fs : List Face),
      argminBy Face.cx f fs ∈ f :: fs ∧
        ∀ g ∈ f :: fs, (argminBy Face.cx f fs).cx ≤ g.cx) := by
  refine ⟨fun fds rest h => ?_, fun f fs t lastCx spk hfs hspk => ?_, fun f fs =>
    ⟨argminBy_mem Face.cx fs f, fun g hg => argminBy_le Face.cx fs f g hg⟩⟩
  · unfold speakerSide
    rw [find?_append_left]
    rw [List.find?_isSome]
    obtain ⟨fd, hmem, hlen⟩ := h
    exact ⟨fd, hmem, by simpa using hlen⟩
  · have hemp : fs.isEmpty = false := by
      cases fs with
      | nil => exact absurd rfl hfs
      | cons a l => rfl
    have htc : targetCxOf ctx (some spk) f fs t lastCx = (argminBy Face.cx f fs).cx := by
      unfold targetCxOf
      rw [hspk]
      simp [hemp]
    have hg : get_crop_x ctx (some spk) (f :: fs) t lastCx =
        some (max 0 (min (targetCxOf ctx (some spk) f fs t lastCx - Int.fdiv ctx.cropW 2)
          (ctx.srcW - ctx.cropW))) := rfl
    rw [hg, htc]

/-- Witness for C8: each conjunct applied at a concrete input. -/
theorem speaker_binding_spec_witness :
    (speakerSide CtxC (FdsC ++ [⟨30, []⟩]) = speakerSide CtxC FdsC) ∧
    (get_crop_x CtxC (some "A") [faceB, faceA] 15 (some 500) =
      some (max 0 (min ((argminBy Face.cx faceB [faceA]).cx - Int.fdiv CtxC.cropW 2)
        (CtxC.srcW - CtxC.cropW)))) ∧
    (argminBy Face.cx faceB [faceA] ∈ [faceB, faceA] ∧
      ∀ g ∈ [faceB, faceA], (argminBy Face.cx faceB [faceA]).cx ≤ g.cx) :=
  ⟨(speaker_binding_spec CtxC).1 FdsC [⟨30, []⟩] ⟨⟨0, [faceA, faceB]⟩, by decide, by decide⟩,
   (speaker_binding_spec CtxC).2.1 faceB [faceA] 15 (some 500) "A" (by decide) rfl,
   (speaker_binding_spec CtxC).2.2 faceB [faceA]⟩

/-! ## C7: segment merging -/

/-- `rest` is a contiguous run of segments starting where the previous one
stopped. -/
def contiguousFrom : ℚ → List Seg → Prop
  | _, [] => True
  | e, s :: rest => s.start = e ∧ contiguousFrom s.stop rest

/-- The segment list partitions time contiguously. -/
def contiguous : List Seg → Prop
  | [] => True
  | s :: rest => contiguousFrom s.stop rest

/-- Counterexample to C7 as stated: a short *first* segment survives the merge
(it has no predecessor), so with a long segment after it the output has a
non-last segment below the threshold. -/
theorem merge_short_first_counterexample :
    mergeSegs [⟨true, 0, 1, []⟩, ⟨false, 1, 3, []⟩] =
      [⟨true, 0, 1, []⟩, ⟨false, 1, 3, []⟩] ∧
    (⟨true, 0, 1, []⟩ : Seg).stop - (⟨true, 0, 1, []⟩ : Seg).start < MIN_SEG_DURATION := by
  constructor
  · rfl
  · decide

theorem mergeGo_long :
    ∀ (rest : List Seg) (cur : Seg),
      MIN_SEG_DURATION ≤ cur.stop - cur.start →
      contiguousFrom cur.stop rest →
      (∀ s ∈ rest, s.start ≤ s.stop) →
      ∀ s ∈ mergeGo cur rest, MIN_SEG_DURATION ≤ s.stop - s.start := by
  intro rest
  induction rest with
  | nil =>
    intro cur hcur _ _ s hs
    rw [mergeGo, List.mem_singleton] at hs
    exact hs ▸ hcur
  | cons s rest ih =>
    intro cur hcur hcf hd x hx
    obtain ⟨hlink, hrest⟩ := hcf
    rw [mergeGo] at hx
    by_cases habs : s.stop - s.start < MIN_SEG_DURATION
    · rw [if_pos habs] at hx
      refine ih ⟨cur.kind, cur.start, s.stop, cur.coords ++ s.coords⟩ ?_ hrest
        (fun g hg => hd g (List.mem_cons_of_mem s hg)) x hx
      have hss : s.start ≤ s.stop := hd s (List.mem_cons_self s rest)
      simp only
      linarith [hcur, hss, hlink.symm.le, hlink.le]
    · rw [if_neg habs] at hx
      rcases List.mem_cons.mp hx with h1 | h1
      · exact h1 ▸ hcur
      · exact ih s (le_of_not_lt habs) hrest
          (fun g hg => hd g (List.mem_cons_of_mem s hg)) x h1

theorem mergeGo_tail :
    ∀ (rest : List Seg) (cur : Seg),
      contiguousFrom cur.stop rest →
      (∀ s ∈ rest, s.start ≤ s.stop) →
      ∀ s ∈ (mergeGo cur rest).drop 1, MIN_SEG_DURATION ≤ s.stop - s.start := by
  intro rest
  induction rest with
  | nil => intro cur _ _ s hs; simp [mergeGo] at hs
  | cons s rest ih =>
    intro cur hcf hd x hx
    obtain ⟨hlink, hrest⟩ := hcf
    rw [mergeGo] at hx
    by_cases habs : s.stop - s.start < MIN_SEG_DURATION
    · rw [if_pos habs] at hx
      exact ih ⟨cur.kind, cur.start, s.stop, cur.coords ++ s.coords⟩ hrest
        (fun g hg => hd g (List.mem_cons_of_mem s hg)) x hx
    · rw [if_neg habs] at hx
      rw [List.drop_one, List.tail_cons] at hx
      exact mergeGo_long rest s (le_of_not_lt habs) hrest
        (fun g hg => hd g (List.mem_cons_of_mem s hg)) x hx

/-- C7 (amended): after merging, no segment but possibly the *first* has
duration below the minimum threshold (a short first segment has no predecessor
and survives; every other surviving segment entered the output with duration
at least the threshold and only ever grows by absorbing successors). -/
theorem mergeSegs_tail_long (segs : List Seg)
    (hc : contiguous segs) (hd : ∀ s ∈ segs, s.start ≤ s.stop) :
    ∀ s ∈ (mergeSegs segs).drop 1, MIN_SEG_DURATION ≤ s.stop - s.start := by
  cases segs with
  | nil => intro s hs; simp [mergeSegs] at hs
  | cons s rest =>
    exact mergeGo_tail rest s hc (fun g hg => hd g (List.mem_cons_of_mem s hg))

/-- Witness for C7 on a concrete two-segment list whose merge keeps both. -/
theorem mergeSegs_tail_long_witness :
    MIN_SEG_DURATION ≤ (⟨false, 2, 4, []⟩ : Seg).stop - (⟨false, 2, 4, []⟩ : Seg).start :=
  mergeSegs_tail_long [⟨true, 0, 2, []⟩, ⟨false, 2, 4, []⟩] ⟨rfl, trivial⟩
    (by decide) ⟨false, 2, 4, []⟩ (by decide)

/-! ## C1: every emitted coordinate stays inside the frame -/

/-- Horizontal crop origin in range. -/
def inRangeX (ctx : Ctx) (x : ℤ) : Prop := 0 ≤ x ∧ x ≤ ctx.srcW - ctx.cropW

/-- Vertical crop origin in range. -/
def inRangeY (ctx : Ctx) (y : ℤ) : Prop := 0 ≤ y ∧ y ≤ ctx.srcH - ctx.cropH

/-- A keyframe whose origin lies inside the frame. -/
def inRange (ctx : Ctx) (c : Coord) : Prop := inRangeX ctx c.x ∧ inRangeY ctx c.y

instance (ctx : Ctx) (c : Coord) : Decidable (inRange ctx c) := by
  unfold inRange inRangeX inRangeY
  infer_instance

theorem pyInt_range {q : ℚ} {hi : ℤ} (h0 : 0 ≤ q) (hhi : q ≤ (hi : ℚ)) :
    0 ≤ pyInt q ∧ pyInt q ≤ hi := by
  unfold pyInt
  rw [if_pos h0]
  constructor
  · exact Int.le_floor.mpr (by exact_mod_cast h0)
  · exact_mod_cast (Int.floor_le q).trans hhi

theorem get_crop_x_range (ctx : Ctx) (sside : Option String) (faces : List Face) (t : ℚ)
    (lastCx : Option ℤ) (x : ℤ) (hw : 0 ≤ ctx.srcW - ctx.cropW)
    (hx : get_crop_x ctx sside faces t lastCx = some x) : inRangeX ctx x := by
  cases faces with
  | nil => exact absurd hx (by simp [get_crop_x])
  | cons f fs =>
    have hg : get_crop_x ctx sside (f :: fs) t lastCx =
        some (max 0 (min (targetCxOf ctx sside f fs t lastCx - Int.fdiv ctx.cropW 2)
          (ctx.srcW - ctx.cropW))) := rfl
    rw [hg, Option.some_inj] at hx
    rw [← hx]
    exact ⟨le_max_left _ _, max_le hw (min_le_right _ _)⟩

theorem get_crop_y_range (faces : List Face) (srcH cropH : ℤ) (h : 0 ≤ srcH - cropH) :
    0 ≤ get_crop_y faces srcH cropH ∧ get_crop_y faces srcH cropH ≤ srcH - cropH := by
  cases faces with
  | nil => exact ⟨le_refl 0, h⟩
  | cons f fs =>
    rw [get_crop_y]
    exact ⟨le_max_left _ _, max_le h (min_le_right _ _)⟩

theorem clampX_range (ctx : Ctx) (hw : 0 ≤ ctx.srcW - ctx.cropW) (q : ℚ) :
    0 ≤ clampX ctx q ∧ clampX ctx q ≤ ((ctx.srcW - ctx.cropW : ℤ) : ℚ) :=
  ⟨le_max_left _ _, max_le (by exact_mod_cast hw) (min_le_right _ _)⟩

theorem predictGo_range (ctx : Ctx) (sside : Option String) (hw : 0 ≤ ctx.srcW - ctx.cropW) :
    ∀ (fds : List Sample) (lastX lastCx : ℤ) (lastVel : ℚ),
      ∀ rc ∈ predictGo ctx sside lastX lastCx lastVel fds, inRangeX ctx rc.x := by
  intro fds
  induction fds with
  | nil => intro _ _ _ rc hrc; simp [predictGo] at hrc
  | cons fd rest ih =>
    intro lastX lastCx lastVel rc hrc
    rw [predictGo] at hrc
    cases hx : get_crop_x ctx sside fd.faces fd.t (some lastCx) with
    | none =>
      rw [hx] at hrc
      rcases List.mem_cons.mp hrc with h1 | h1
      · rw [h1]
        have hb := clampX_range ctx hw ((lastX : ℚ) + lastVel * (1/2))
        exact pyInt_range hb.1 hb.2
      · exact ih _ _ _ rc h1
    | some x0 =>
      rw [hx] at hrc
      rcases List.mem_cons.mp hrc with h1 | h1
      · rw [h1]
        exact get_crop_x_range ctx sside fd.faces fd.t (some lastCx) x0 hw hx
      · exact ih _ _ _ rc h1

theorem convex_bound {lo hi p q a : ℚ} (h0 : 0 ≤ a) (h1 : a ≤ 1)
    (hp1 : lo ≤ p) (hp2 : p ≤ hi) (hq1 : lo ≤ q) (hq2 : q ≤ hi) :
    lo ≤ a * q + (1 - a) * p ∧ a * q + (1 - a) * p ≤ hi := by
  constructor <;> nlinarith

theorem lerp_bound {lo hi p q τ : ℚ} (h0 : 0 ≤ τ) (h1 : τ ≤ 1)
    (hp1 : lo ≤ p) (hp2 : p ≤ hi) (hq1 : lo ≤ q) (hq2 : q ≤ hi) :
    lo ≤ p + τ * (q - p) ∧ p + τ * (q - p) ≤ hi := by
  constructor <;> nlinarith

theorem smoothNext_range {H sx x : ℚ} (phf face : Bool)
    (hs1 : 0 ≤ sx) (hs2 : sx ≤ H) (hx1 : 0 ≤ x) (hx2 : x ≤ H) :
    0 ≤ smoothNext sx phf x face ∧ smoothNext sx phf x face ≤ H := by
  unfold smoothNext
  have ha0 : (0 : ℚ) ≤ alphaOf |x - sx| := by
    unfold alphaOf
    apply le_min (by norm_num)
    positivity
  have ha1 : alphaOf |x - sx| ≤ 1 := by
    unfold alphaOf
    exact (min_le_left _ _).trans (by norm_num)
  split
  · exact ⟨hx1, hx2⟩
  · split
    · exact ⟨hx1, hx2⟩
    · split
      · exact convex_bound ha0 ha1 hs1 hs2 hx1 hx2
      · exact ⟨hs1, hs2⟩

theorem smoothGo_range (ctx : Ctx) (fds : List Sample)
    (hh : 0 ≤ ctx.srcH - ctx.cropH) :
    ∀ (rcs : List RawCoord) (sx : ℚ) (phf : Bool),
      0 ≤ sx → sx ≤ ((ctx.srcW - ctx.cropW : ℤ) : ℚ) →
      (∀ rc ∈ rcs, inRangeX ctx rc.x) →
      ∀ c ∈ smoothGo ctx fds sx phf rcs, inRange ctx c := by
  intro rcs
  induction rcs with
  | nil => intro sx phf _ _ _ c hc; simp [smoothGo] at hc
  | cons rc rest ih =>
    intro sx phf hs1 hs2 hall c hc
    rw [smoothGo] at hc
    have hrc := hall rc (List.mem_cons_self rc rest)
    have hx1 : (0 : ℚ) ≤ (rc.x : ℚ) := by exact_mod_cast hrc.1
    have hx2 : (rc.x : ℚ) ≤ ((ctx.srcW - ctx.cropW : ℤ) : ℚ) := by exact_mod_cast hrc.2
    have hnext := smoothNext_range phf rc.face hs1 hs2 hx1 hx2
    rcases List.mem_cons.mp hc with h1 | h1
    · rw [h1]
      refine ⟨pyInt_range hnext.1 hnext.2, ?_⟩
      exact get_crop_y_range _ ctx.srcH ctx.cropH hh
    · exact ih _ rc.face hnext.1 hnext.2
        (fun r hr => hall r (List.mem_cons_of_mem rc hr)) c h1

theorem keyframes_range (ctx : Ctx) (fds : List Sample)
    (hw : 0 ≤ ctx.srcW - ctx.cropW) (hh : 0 ≤ ctx.srcH - ctx.cropH) :
    ∀ c ∈ (keyframes ctx fds).getD [], inRange ctx c := by
  intro c hc
  unfold keyframes at hc
  cases hr : rawPass ctx fds with
  | nil => rw [hr] at hc; simp [smoothStage] at hc
  | cons r rest =>
    rw [hr, smoothStage, Option.getD_some] at hc
    have hall : ∀ rc ∈ r :: rest, inRangeX ctx rc.x := by
      rw [← hr]
      exact fun rc h => predictGo_range ctx (speakerSide ctx fds) hw fds _ _ _ rc h
    have hr0 := hall r (List.mem_cons_self r rest)
    exact smoothGo_range ctx fds hh (r :: rest) (r.x : ℚ) r.face
      (by exact_mod_cast hr0.1) (by exact_mod_cast hr0.2) hall c hc

theorem interpBlock_range (ctx : Ctx) (fps : ℚ) (a b : Coord)
    (ha : inRange ctx a) (hb : inRange ctx b) :
    ∀ c ∈ interpBlock ctx fps a b, inRange ctx c := by
  intro c hc
  unfold interpBlock at hc
  rw [List.mem_map] at hc
  obtain ⟨step, hstep, rfl⟩ := hc
  rw [List.mem_range] at hstep
  have hsteps1 : (1 : ℤ) ≤ max 1 (pyRound ((b.t - a.t) / (1 / fps))) := le_max_left _ _
  have hstepsQ : (1 : ℚ) ≤ ((max 1 (pyRound ((b.t - a.t) / (1 / fps))) : ℤ) : ℚ) := by
    exact_mod_cast hsteps1
  have hsteplt : ((step : ℤ) : ℚ) < ((max 1 (pyRound ((b.t - a.t) / (1 / fps))) : ℤ) : ℚ) := by
    have : (step : ℤ) < max 1 (pyRound ((b.t - a.t) / (1 / fps))) := by
      have := Int.toNat_of_nonneg (le_trans zero_le_one hsteps1)
      omega
    exact_mod_cast this
  have hτ0 : (0 : ℚ) ≤ (step : ℚ) / ((max 1 (pyRound ((b.t - a.t) / (1 / fps))) : ℤ) : ℚ) := by
    apply div_nonneg (by positivity)
    linarith
  have hτ1 : (step : ℚ) / ((max 1 (pyRound ((b.t - a.t) / (1 / fps))) : ℤ) : ℚ) ≤ 1 := by
    rw [div_le_one (by linarith)]
    push_cast at hsteplt ⊢
    linarith
  refine ⟨?_, ?_⟩
  · simp only
    split
    · split
      · exact hb.1
      · exact ha.1
    · have hax1 : (0 : ℚ) ≤ ((a.x : ℤ) : ℚ) := by exact_mod_cast ha.1.1
      have hax2 : ((a.x : ℤ) : ℚ) ≤ ((ctx.srcW - ctx.cropW : ℤ) : ℚ) := by exact_mod_cast ha.1.2
      have hbx1 : (0 : ℚ) ≤ ((b.x : ℤ) : ℚ) := by exact_mod_cast hb.1.1
      have hbx2 : ((b.x : ℤ) : ℚ) ≤ ((ctx.srcW - ctx.cropW : ℤ) : ℚ) := by exact_mod_cast hb.1.2
      have := lerp_bound hτ0 hτ1 hax1 hax2 hbx1 hbx2
      exact pyInt_range this.1 this.2
  · simp only
    split
    · split
      · exact hb.2
      · exact ha.2
    · have hay1 : (0 : ℚ) ≤ ((a.y : ℤ) : ℚ) := by exact_mod_cast ha.2.1
      have hay2 : ((a.y : ℤ) : ℚ) ≤ ((ctx.srcH - ctx.cropH : ℤ) : ℚ) := by exact_mod_cast ha.2.2
      have hby1 : (0 : ℚ) ≤ ((b.y : ℤ) : ℚ) := by exact_mod_cast hb.2.1
      have hby2 : ((b.y : ℤ) : ℚ) ≤ ((ctx.srcH - ctx.cropH : ℤ) : ℚ) := by exact_mod_cast hb.2.2
      have := lerp_bound hτ0 hτ1 hay1 hay2 hby1 hby2
      exact pyInt_range this.1 this.2

theorem interpPairs_range (ctx : Ctx) (fps : ℚ) :
    ∀ coords : List Coord, (∀ c ∈ coords, inRange ctx c) →
      ∀ c ∈ interpPairs ctx fps coords, inRange ctx c := by
  intro coords
  induction coords with
  | nil => intro _ c hc; simp [interpPairs] at hc
  | cons a tail ih =>
    cases tail with
    | nil => intro _ c hc; simp [interpPairs] at hc
    | cons b rest =>
      intro hall c hc
      rw [interpPairs] at hc
      rcases List.mem_append.mp hc with h1 | h1
      · exact interpBlock_range ctx fps a b (hall a (List.mem_cons_self a _))
          (hall b (List.mem_cons_of_mem a (List.mem_cons_self b rest))) c h1
      · exact ih (fun x hx => hall x (List.mem_cons_of_mem a hx)) c h1

theorem frameCoordsOf_range (ctx : Ctx) (fps : ℚ) (coords : List Coord)
    (hall : ∀ c ∈ coords, inRange ctx c) :
    ∀ c ∈ frameCoordsOf ctx fps coords, inRange ctx c := by
  intro c hc
  cases coords with
  | nil => simp [frameCoordsOf] at hc
  | cons c0 cs =>
    rw [frameCoordsOf] at hc
    rcases List.mem_append.mp hc with h1 | h1
    · exact interpPairs_range ctx fps (c0 :: cs) hall c h1
    · rw [List.mem_singleton] at h1
      rw [h1]
      exact hall _ (List.getLast_mem _)

/-- C1: on any clip reaching the talking-head branch (any sample stream,
any diarization, any fps), provided the crop window fits inside the source
frame, every produced keyframe and every interpolated per-frame coordinate
satisfies `0 ≤ x ≤ srcW − cropW` and `0 ≤ y ≤ srcH − cropH`: the subject
selector, gap prediction and headroom computation clamp, and smoothing and
interpolation are convex combinations of in-range values (truncated to int,
which preserves the range). -/
theorem podcast_coords_in_range (ctx : Ctx) (fds : List Sample) (fps : ℚ)
    (hw : 0 ≤ ctx.srcW - ctx.cropW) (hh : 0 ≤ ctx.srcH - ctx.cropH) :
    (∀ c ∈ (keyframes ctx fds).getD [], inRange ctx c) ∧
    (∀ c ∈ frameCoordsOf ctx fps ((keyframes ctx fds).getD []), inRange ctx c) :=
  ⟨keyframes_range ctx fds hw hh,
   frameCoordsOf_range ctx fps _ (keyframes_range ctx fds hw hh)⟩

/-- Witness for C1 on a concrete clip: one detected sample then a gap. -/
theorem podcast_coords_in_range_witness :
    inRange CtxA ⟨0, 0, 0, 562, 1000, true⟩ ∧
      inRange CtxA ⟨333/10000, 0, 0, 562, 1000, true⟩ :=
  ⟨(podcast_coords_in_range CtxA [⟨0, [faceA]⟩, ⟨1/10, []⟩] 30 (by decide) (by decide)).1
      ⟨0, 0, 0, 562, 1000, true⟩ (by decide),
   (podcast_coords_in_range CtxA [⟨0, [faceA]⟩, ⟨1/10, []⟩] 30 (by decide) (by decide)).2
      ⟨333/10000, 0, 0, 562, 1000, true⟩ (by decide)⟩

end SmartCrop
